import Mathlib

/-!
Shallow embedding of the forecast aggregation routine of the
ForecastScreen component (the Daily Aggregator of the specification).

The JavaScript source groups a flat list of 3-hour forecast samples into
per-day buckets keyed by the local calendar date string, reduces each
bucket to min/max temperature and the most common weather condition, and
sorts the resulting daily summaries ascending by their date field.

Modelling conventions:
* JS numbers used for temperatures are modelled as rationals.
* A sample's timestamp (seconds since epoch) is modelled as an integer;
  the local-calendar-date derivation (toLocaleDateString) is modelled as
  an arbitrary function from timestamps into a type with decidable
  equality, since only key equality is ever used by the code.
* A JS object used as a string-keyed dictionary iterates its (non-index)
  keys in insertion order; it is modelled as an association list where
  updating keeps a key's position and a new key is appended at the end.
* Code paths that throw a TypeError are modelled with Except Unit.
* Array.prototype.sort with the numeric comparator is a stable ascending
  sort; it is modelled as insertion sort, which is stable and sorted, and
  hence pointwise equal to the engine's sort for every total preorder.
-/

namespace ForecastAgg

/-- One entry of a sample's weather array: coarse category (main),
description and icon, read by the code via item.weather[0]. -/
structure WeatherCond where
  main : String
  description : String
  icon : String
deriving DecidableEq, Repr

/-- The main block of one sample: the temperature bounds read by the code
via item.main.temp_min and item.main.temp_max. -/
structure MainTemps where
  temp_min : ℚ
  temp_max : ℚ
deriving DecidableEq, Repr

/-- One forecast sample of forecastData.list: timestamp dt (seconds),
temperatures, and the weather array (possibly empty for a malformed
sample). -/
structure Item where
  dt : Int
  main : MainTemps
  weather : List WeatherCond
deriving DecidableEq, Repr

/-- One element of the dailyForecasts array built by the screen: date is
the dt of the first-inserted bucket member (the JS code stores
new Date(items[0].dt * 1000); ordering Date values and ordering the dt
seconds agree), weather is the mostCommonWeather variable (undefined is
modelled as none), and items is the day's bucket. -/
structure Daily where
  date : Int
  minTemp : ℚ
  maxTemp : ℚ
  weather : Option WeatherCond
  items : List Item
deriving DecidableEq, Repr

variable {K : Type} [DecidableEq K]

/-- One step of building the groupedByDay object: push the item onto the
bucket stored under key k, or create a fresh bucket at the end (JS
dictionary keys iterate in insertion order). -/
def insertItem (k : K) (it : Item) : List (K × List Item) → List (K × List Item)
  | [] => [(k, [it])]
  | (k', l) :: rest =>
    if k' = k then (k', l ++ [it]) :: rest else (k', l) :: insertItem k it rest

/-- The grouping pass of the screen: forecastData.list.forEach pushing
each item onto groupedByDay[toLocaleDateString(item.dt)]. -/
def groupByDay (dayKey : Int → K) (items : List Item) : List (K × List Item) :=
  items.foldl (fun acc it => insertItem (dayKey it.dt) it acc) []

/-- The first weather entry's category of a sample, item.weather[0].main,
as an optional value (none when the weather array is empty). -/
def condMain (it : Item) : Option String :=
  it.weather.head?.map (fun w => w.main)

/-- One step of the weatherCounts tally: weatherCounts[condition] =
(weatherCounts[condition] or 0) + 1, with insertion-order keys. -/
def bump (c : String) : List (String × Nat) → List (String × Nat)
  | [] => [(c, 1)]
  | (c', n) :: rest =>
    if c' = c then (c', n + 1) :: rest else (c', n) :: bump c rest

/-- The weatherCounts loop over a bucket. Reading item.weather[0].main
throws a TypeError when the sample has no weather entry, which aborts the
whole aggregation; this is the Except.error case. -/
def tallyAux (acc : List (String × Nat)) : List Item → Except Unit (List (String × Nat))
  | [] => Except.ok acc
  | it :: rest =>
    match it.weather.head? with
    | none => Except.error ()
    | some w => tallyAux (bump w.main acc) rest

/-- weatherCounts for a bucket, starting from the empty dictionary. -/
def tally (items : List Item) : Except Unit (List (String × Nat)) :=
  tallyAux [] items

/-- items.find(item => item.weather[0].main === condition). -/
def firstWith (items : List Item) (c : String) : Option Item :=
  items.find? (fun it => condMain it = some c)

/-- The selection loop over Object.keys(weatherCounts): starting from
mostCommonWeather = items[0].weather[0] and maxCount = 0, replace the
candidate whenever a strictly larger count is seen; the replacement reads
items.find(...).weather[0] and throws when find returns undefined. -/
def mcFold (items : List Item) (acc : Option WeatherCond × Nat) :
    List (String × Nat) → Except Unit (Option WeatherCond × Nat)
  | [] => Except.ok acc
  | kc :: rest =>
    if acc.2 < kc.2 then
      match firstWith items kc.1 with
      | none => Except.error ()
      | some it => mcFold items (it.weather.head?, kc.2) rest
    else mcFold items acc rest

/-- The mostCommonWeather computation for a bucket: fold the selection
loop over the tallied counts, seeded with items[0].weather[0]. -/
def mostCommon (items : List Item) (counts : List (String × Nat)) :
    Except Unit (Option WeatherCond) :=
  (mcFold items (items.head?.bind (fun it => it.weather.head?), 0) counts).map Prod.fst

/-- The per-bucket reduction of the dailyForecasts map: min/max of the
temperature bounds (Math.min / Math.max over the spread arrays), the
weatherCounts tally, the mostCommonWeather selection, and the returned
record with date := items[0].dt. An empty bucket would throw on
items[0]; buckets produced by grouping are never empty. -/
def reduceBucket (items : List Item) : Except Unit Daily :=
  match items with
  | [] => Except.error ()
  | i0 :: rest =>
    match tally (i0 :: rest) with
    | Except.error e => Except.error e
    | Except.ok counts =>
      match mostCommon (i0 :: rest) counts with
      | Except.error e => Except.error e
      | Except.ok w =>
        Except.ok
          { date := i0.dt
            minTemp := (rest.map (fun it => it.main.temp_min)).foldl min i0.main.temp_min
            maxTemp := (rest.map (fun it => it.main.temp_max)).foldl max i0.main.temp_max
            weather := w
            items := i0 :: rest }

/-- Mapping a fallible reduction over the bucket list; any thrown error
aborts the whole run, as in JS. -/
def mapExcept (g : α → Except Unit β) : List α → Except Unit (List β)
  | [] => Except.ok []
  | a :: rest =>
    match g a with
    | Except.error e => Except.error e
    | Except.ok b => (mapExcept g rest).map (fun bs => b :: bs)

/-- Ascending-by-date ordering used by the final sort comparator
(a, b) => a.date - b.date. -/
def dateLE (a b : Daily) : Prop := a.date ≤ b.date

instance : DecidableRel dateLE := fun a b => Int.decLe a.date b.date

instance : IsTotal Daily dateLE := ⟨fun a b => Int.le_total a.date b.date⟩

instance : IsTrans Daily dateLE := ⟨fun _ _ _ h1 h2 => le_trans h1 h2⟩

/-- dailyForecasts.sort((a, b) => a.date - b.date): a stable ascending
sort, modelled by insertion sort (stable sorts by a total preorder agree
pointwise). -/
def sortDailies (l : List Daily) : List Daily :=
  List.insertionSort dateLE l

/-- The whole aggregation pipeline of the screen: group the samples by
local-date key, reduce every bucket, and sort the daily summaries
ascending by date. -/
def aggregate (dayKey : Int → K) (items : List Item) : Except Unit (List Daily) :=
  (mapExcept (fun b => reduceBucket b.2) (groupByDay dayKey items)).map sortDailies

/-- The JS value found in forecastData.list: absent covers every falsy
value (null, undefined), which the guard !forecastData.list catches;
notIterable covers a truthy value with no forEach method, which passes
the guard and then throws; arr is an actual array of samples. -/
inductive JSList where
  | absent
  | notIterable
  | arr (l : List Item)
deriving DecidableEq

/-- The forecastData prop; only its list field is read by the screen. -/
structure ForecastData where
  list : JSList
deriving DecidableEq

/-- What the screen renders: the loading placeholder, the
data-unavailable placeholder, or the FlatList of daily summaries. -/
inductive View where
  | loading
  | unavailable
  | forecasts (l : List Daily)
deriving DecidableEq

/-- The ForecastScreen component body: the loading guard
(loading && !forecastData), the missing-data guard
(!forecastData || !forecastData.list), then the aggregation; a truthy
non-iterable list passes the guard and throws at .forEach. -/
def screen (dayKey : Int → K) (loading : Bool) (fd : Option ForecastData) :
    Except Unit View :=
  if loading && fd.isNone then Except.ok View.loading
  else
    match fd with
    | none => Except.ok View.unavailable
    | some d =>
      match d.list with
      | JSList.absent => Except.ok View.unavailable
      | JSList.notIterable => Except.error ()
      | JSList.arr l => (aggregate dayKey l).map View.forecasts

/-- The daily summaries carried by a rendered view (none for the
placeholder screens). -/
def summariesOf : View → List Daily
  | View.forecasts l => l
  | _ => []

/-- A sample is well formed for the condition tally when its weather
array is non-empty (the code reads item.weather[0].main). -/
@[reducible] def WF (items : List Item) : Prop := ∀ it ∈ items, it.weather ≠ []

/-- First-occurrence deduplication: the key-iteration order of a JS
dictionary filled left to right. Used to characterise grouping and
tallying. -/
def firstDedup {α : Type} [DecidableEq α] (l : List α) : List α :=
  l.foldl (fun acc x => if x ∈ acc then acc else acc ++ [x]) []

/-- The distinct day keys of the input, in first-occurrence order. -/
def keysOf (dayKey : Int → K) (items : List Item) : List K :=
  firstDedup (items.map (fun it => dayKey it.dt))

/-- The sub-sequence of samples of the day keyed k, in input order. -/
def dayBucket (dayKey : Int → K) (k : K) (items : List Item) : List Item :=
  items.filter (fun it => decide (dayKey it.dt = k))

/-- The sequence of condition categories of a bucket, in bucket order
(samples with no condition entry contribute nothing). -/
def condsOf (items : List Item) : List String :=
  items.filterMap condMain

/-- Number of occurrences of category c in a category sequence. -/
def countOcc (c : String) (cs : List String) : Nat :=
  cs.countP (fun x => decide (x = c))

/-- Pure shadow of the tally fold on the category sequence. -/
def tallyStr (cs : List String) : List (String × Nat) :=
  cs.foldl (fun acc c => bump c acc) []

/-- The largest tallied count (0 for an empty tally). -/
def maxCnt (counts : List (String × Nat)) : Nat :=
  (counts.map Prod.snd).foldl max 0

/-- Placeholder daily summary used only to state successful-run
extractions. -/
def dayDummy : Daily :=
  { date := 0, minTemp := 0, maxTemp := 0, weather := none, items := [] }

/-- Extract the payload of a successful reduction. -/
def okD : Except Unit Daily → Daily
  | Except.ok d => d
  | Except.error _ => dayDummy

/-- Pure shadow of the mostCommonWeather selection loop (meaningful when
every tallied category is found among the bucket's samples). -/
def mcShadow (items : List Item) (acc : Option WeatherCond × Nat)
    (counts : List (String × Nat)) : Option WeatherCond × Nat :=
  counts.foldl
    (fun a kc =>
      if a.2 < kc.2 then
        ((firstWith items kc.1).bind (fun it => it.weather.head?), kc.2)
      else a)
    acc

-- Concrete material for witnesses and counterexamples.

/-- A concrete day-key derivation (UTC-day truncation) standing in for
the locale-dependent toLocaleDateString. -/
def dk0 : Int → Int := fun t => t / 86400

/-- Concrete Rain condition detail. -/
def rainCond : WeatherCond :=
  { main := "Rain", description := "light rain", icon := "10d" }

/-- Concrete Clouds condition detail. -/
def cloudsCond : WeatherCond :=
  { main := "Clouds", description := "scattered clouds", icon := "03d" }

/-- Sample at t = 100 with category Rain. -/
def sampRain : Item :=
  { dt := 100, main := { temp_min := 10, temp_max := 20 }, weather := [rainCond] }

/-- Sample at t = 50 (earlier than sampRain, same day) with category
Clouds. -/
def sampClouds : Item :=
  { dt := 50, main := { temp_min := 11, temp_max := 21 }, weather := [cloudsCond] }

/-- Malformed sample with an empty weather array (same day as sampRain). -/
def sampBad : Item :=
  { dt := 200, main := { temp_min := 5, temp_max := 6 }, weather := [] }

/-- Sample on the following day (dt / 86400 = 1). -/
def sampDay2 : Item :=
  { dt := 86500, main := { temp_min := 7, temp_max := 17 },
    weather := [{ main := "Snow", description := "light snow", icon := "13d" }] }

/-- The summary the code produces for the bucket of sampRain followed by
sampClouds. -/
def dailyRC : Daily :=
  { date := 100, minTemp := 10, maxTemp := 21, weather := some rainCond,
    items := [sampRain, sampClouds] }

/-- The summary the code produces for the bucket of sampClouds followed
by sampRain (the same samples, permuted). -/
def dailyCR : Daily :=
  { date := 50, minTemp := 10, maxTemp := 21, weather := some cloudsCond,
    items := [sampClouds, sampRain] }

/-! ### Generic helper lemmas -/

theorem firstDedup_append_singleton {α : Type} [DecidableEq α] (l : List α) (x : α) :
    firstDedup (l ++ [x]) =
      if x ∈ firstDedup l then firstDedup l else firstDedup l ++ [x] := by
  simp [firstDedup, List.foldl_append]

theorem mem_firstDedup {α : Type} [DecidableEq α] {l : List α} {y : α} :
    y ∈ firstDedup l ↔ y ∈ l := by
  induction l using List.reverseRecOn with
  | nil => simp [firstDedup]
  | append_singleton l x ih =>
    rw [firstDedup_append_singleton]
    by_cases hx : x ∈ firstDedup l
    · rw [if_pos hx]
      simp only [List.mem_append, List.mem_singleton, ih]
      constructor
      · exact fun h => Or.inl h
      · rintro (h | rfl)
        · exact h
        · exact ih.mp hx
    · rw [if_neg hx]
      simp [ih]

theorem nodup_firstDedup {α : Type} [DecidableEq α] (l : List α) :
    (firstDedup l).Nodup := by
  induction l using List.reverseRecOn with
  | nil => simp [firstDedup]
  | append_singleton l x ih =>
    rw [firstDedup_append_singleton]
    by_cases hx : x ∈ firstDedup l
    · rwa [if_pos hx]
    · rw [if_neg hx]
      simp only [List.nodup_append, List.nodup_singleton, true_and]
      exact ⟨ih, by simpa [List.disjoint_singleton] using hx⟩

theorem firstDedup_toFinset {α : Type} [DecidableEq α] (l : List α) :
    (firstDedup l).toFinset = l.toFinset := by
  ext a
  simp [List.mem_toFinset, mem_firstDedup]

theorem mapExcept_ok_of_forall {α β : Type} (g : α → Except Unit β) (h : α → β)
    {l : List α} (H : ∀ a ∈ l, g a = Except.ok (h a)) :
    mapExcept g l = Except.ok (l.map h) := by
  induction l with
  | nil => rfl
  | cons a rest ih =>
    simp only [mapExcept, H a (List.mem_cons_self a rest)]
    rw [ih (fun b hb => H b (List.mem_cons_of_mem _ hb))]
    rfl

theorem mapExcept_ok_mem {α β : Type} {g : α → Except Unit β} :
    ∀ {l : List α} {o : List β}, mapExcept g l = Except.ok o →
      ∀ b ∈ o, ∃ a ∈ l, g a = Except.ok b := by
  intro l
  induction l with
  | nil =>
    intro o h b hb
    simp only [mapExcept] at h
    cases h
    cases hb
  | cons a rest ih =>
    intro o h b hb
    cases hga : g a with
    | error e =>
      rw [mapExcept, hga] at h
      cases h
    | ok b0 =>
      rw [mapExcept, hga] at h
      cases hrest : mapExcept g rest with
      | error e =>
        rw [hrest] at h
        cases h
      | ok os =>
        rw [hrest] at h
        cases h
        rcases List.mem_cons.mp hb with rfl | hb'
        · exact ⟨a, List.mem_cons_self a rest, hga⟩
        · rcases ih hrest b hb' with ⟨a', ha', hga'⟩
          exact ⟨a', List.mem_cons_of_mem _ ha', hga'⟩

theorem mapExcept_error_of_mem {α β : Type} {g : α → Except Unit β} :
    ∀ {l : List α} {a : α}, a ∈ l → g a = Except.error () →
      mapExcept g l = Except.error () := by
  intro l
  induction l with
  | nil => intro a ha; cases ha
  | cons x rest ih =>
    intro a ha hga
    rcases List.mem_cons.mp ha with rfl | ha'
    · simp [mapExcept, hga]
    · cases hgx : g x with
      | error e => simp [mapExcept, hgx]
      | ok b => simp [mapExcept, hgx, ih ha' hga, Except.map]

/-! ### Characterisation of the grouping pass -/

theorem nodup_keysOf (dayKey : Int → K) (items : List Item) :
    (keysOf dayKey items).Nodup :=
  nodup_firstDedup _

theorem mem_keysOf {dayKey : Int → K} {items : List Item} {k : K} :
    k ∈ keysOf dayKey items ↔ ∃ it ∈ items, dayKey it.dt = k := by
  simp [keysOf, mem_firstDedup]

theorem dayBucket_append_singleton (dayKey : Int → K) (k : K) (items : List Item)
    (it : Item) :
    dayBucket dayKey k (items ++ [it]) =
      if dayKey it.dt = k then dayBucket dayKey k items ++ [it]
      else dayBucket dayKey k items := by
  by_cases h : dayKey it.dt = k
  · simp [dayBucket, List.filter_append, h]
  · simp [dayBucket, List.filter_append, h]

theorem dayBucket_eq_nil_of_not_mem {dayKey : Int → K} {items : List Item} {k : K}
    (h : k ∉ keysOf dayKey items) : dayBucket dayKey k items = [] := by
  rw [dayBucket, List.filter_eq_nil_iff]
  intro it hit
  simp only [decide_eq_true_eq]
  intro hk
  exact h (mem_keysOf.mpr ⟨it, hit, hk⟩)

theorem insertItem_map_mem (g : K → List Item) {keys : List K} {k : K} (it : Item)
    (hnd : keys.Nodup) (hk : k ∈ keys) :
    insertItem k it (keys.map (fun k' => (k', g k'))) =
      keys.map (fun k' => (k', if k' = k then g k' ++ [it] else g k')) := by
  induction keys with
  | nil => cases hk
  | cons k0 rest ih =>
    simp only [List.map_cons, insertItem]
    by_cases h0 : k0 = k
    · subst h0
      rw [if_pos rfl]
      simp only [List.map_cons, List.cons.injEq]
      constructor
      · simp
      · apply List.map_congr_left
        intro a ha
        have hne : a ≠ k0 := fun h => (List.nodup_cons.mp hnd).1 (h ▸ ha)
        simp [hne]
    · rw [if_neg h0]
      have hk' : k ∈ rest := by
        rcases List.mem_cons.mp hk with rfl | h
        · exact absurd rfl h0
        · exact h
      rw [ih (List.nodup_cons.mp hnd).2 hk']
      simp [h0]

theorem insertItem_map_not_mem (g : K → List Item) {keys : List K} {k : K} (it : Item)
    (hk : k ∉ keys) :
    insertItem k it (keys.map (fun k' => (k', g k'))) =
      keys.map (fun k' => (k', g k')) ++ [(k, [it])] := by
  induction keys with
  | nil => rfl
  | cons k0 rest ih =>
    have h0 : k0 ≠ k := fun h => hk (h ▸ List.mem_cons_self _ _)
    simp only [List.map_cons, insertItem, if_neg h0, List.cons_append, List.cons.injEq,
      true_and]
    exact ih (fun h => hk (List.mem_cons_of_mem _ h))

theorem groupByDay_append_singleton (dayKey : Int → K) (items : List Item) (it : Item) :
    groupByDay dayKey (items ++ [it]) =
      insertItem (dayKey it.dt) it (groupByDay dayKey items) := by
  simp [groupByDay, List.foldl_append]

theorem keysOf_append_singleton (dayKey : Int → K) (items : List Item) (it : Item) :
    keysOf dayKey (items ++ [it]) =
      if dayKey it.dt ∈ keysOf dayKey items then keysOf dayKey items
      else keysOf dayKey items ++ [dayKey it.dt] := by
  rw [keysOf, List.map_append]
  exact firstDedup_append_singleton _ _

/-- The grouping pass builds exactly one bucket per distinct day key, in
first-occurrence order, each bucket holding that day's samples in input
order. -/
theorem groupByDay_eq (dayKey : Int → K) (items : List Item) :
    groupByDay dayKey items =
      (keysOf dayKey items).map (fun k => (k, dayBucket dayKey k items)) := by
  induction items using List.reverseRecOn with
  | nil => rfl
  | append_singleton items it ih =>
    rw [groupByDay_append_singleton, ih, keysOf_append_singleton]
    by_cases hk : dayKey it.dt ∈ keysOf dayKey items
    · rw [if_pos hk, insertItem_map_mem _ it (nodup_keysOf dayKey items) hk]
      apply List.map_congr_left
      intro k hk'
      simp only [Prod.mk.injEq, true_and]
      rw [dayBucket_append_singleton]
      by_cases h : k = dayKey it.dt
      · rw [if_pos h, if_pos h.symm]
      · rw [if_neg h, if_neg (fun hh => h hh.symm)]
    · rw [if_neg hk, insertItem_map_not_mem _ it hk, List.map_append]
      congr 1
      · apply List.map_congr_left
        intro k hk'
        simp only [Prod.mk.injEq, true_and]
        rw [dayBucket_append_singleton]
        have hne : dayKey it.dt ≠ k := fun h => hk (h ▸ hk')
        rw [if_neg hne]
      · simp only [List.map_cons, List.map_nil, Prod.mk.injEq, true_and]
        rw [dayBucket_append_singleton, if_pos rfl,
          dayBucket_eq_nil_of_not_mem hk, List.nil_append]

/-! ### Tally characterisation -/

theorem tallyAux_ok_of_wf :
    ∀ (items : List Item) (acc : List (String × Nat)),
      (∀ it ∈ items, it.weather ≠ []) →
      tallyAux acc items =
        Except.ok ((condsOf items).foldl (fun a c => bump c a) acc) := by
  intro items
  induction items with
  | nil => intro acc _; rfl
  | cons it rest ih =>
    intro acc hwf
    rcases List.exists_cons_of_ne_nil (hwf it (List.mem_cons_self _ _)) with ⟨w, ws, hw⟩
    have hconds : condsOf (it :: rest) = w.main :: condsOf rest := by
      simp [condsOf, condMain, hw, List.filterMap_cons]
    rw [hconds]
    simp only [tallyAux, hw, List.head?, List.foldl_cons]
    exact ih (bump w.main acc) (fun it' h' => hwf it' (List.mem_cons_of_mem _ h'))

theorem tally_ok_of_wf {items : List Item} (hwf : ∀ it ∈ items, it.weather ≠ []) :
    tally items = Except.ok (tallyStr (condsOf items)) :=
  tallyAux_ok_of_wf items [] hwf

theorem tallyAux_error :
    ∀ (items : List Item) (acc : List (String × Nat)),
      (∃ it ∈ items, it.weather = []) → tallyAux acc items = Except.error () := by
  intro items
  induction items with
  | nil => intro acc h; rcases h with ⟨it, hit, _⟩; cases hit
  | cons it rest ih =>
    intro acc h
    cases hw : it.weather with
    | nil => simp [tallyAux, hw, List.head?]
    | cons w ws =>
      simp only [tallyAux, hw, List.head?]
      apply ih
      rcases h with ⟨it', hit', hw'⟩
      rcases List.mem_cons.mp hit' with rfl | hmem
      · rw [hw] at hw'; cases hw'
      · exact ⟨it', hmem, hw'⟩

theorem tallyAux_ok_wf :
    ∀ (items : List Item) (acc r : List (String × Nat)),
      tallyAux acc items = Except.ok r → ∀ it ∈ items, it.weather ≠ [] := by
  intro items
  induction items with
  | nil => intro acc r _ it hit; cases hit
  | cons it0 rest ih =>
    intro acc r h it hit
    cases hw : it0.weather with
    | nil => rw [tallyAux, hw] at h; cases h
    | cons w ws =>
      rw [tallyAux, hw] at h
      rcases List.mem_cons.mp hit with rfl | hmem
      · simp [hw]
      · exact ih _ _ h it hmem

theorem bump_map_mem (g : String → Nat) {keys : List String} {c : String}
    (hnd : keys.Nodup) (hc : c ∈ keys) :
    bump c (keys.map (fun c' => (c', g c'))) =
      keys.map (fun c' => (c', if c' = c then g c' + 1 else g c')) := by
  induction keys with
  | nil => cases hc
  | cons c0 rest ih =>
    simp only [List.map_cons, bump]
    by_cases h0 : c0 = c
    · subst h0
      rw [if_pos rfl]
      simp only [List.cons.injEq]
      constructor
      · simp
      · apply List.map_congr_left
        intro a ha
        have hne : a ≠ c0 := fun h => (List.nodup_cons.mp hnd).1 (h ▸ ha)
        simp [hne]
    · rw [if_neg h0]
      have hc' : c ∈ rest := by
        rcases List.mem_cons.mp hc with rfl | h
        · exact absurd rfl h0
        · exact h
      rw [ih (List.nodup_cons.mp hnd).2 hc']
      simp [h0]

theorem bump_map_not_mem (g : String → Nat) {keys : List String} {c : String}
    (hc : c ∉ keys) :
    bump c (keys.map (fun c' => (c', g c'))) =
      keys.map (fun c' => (c', g c')) ++ [(c, 1)] := by
  induction keys with
  | nil => rfl
  | cons c0 rest ih =>
    have h0 : c0 ≠ c := fun h => hc (h ▸ List.mem_cons_self _ _)
    simp only [List.map_cons, bump, if_neg h0, List.cons_append, List.cons.injEq, true_and]
    exact ih (fun h => hc (List.mem_cons_of_mem _ h))

theorem tallyStr_append_singleton (cs : List String) (c : String) :
    tallyStr (cs ++ [c]) = bump c (tallyStr cs) := by
  simp [tallyStr, List.foldl_append]

theorem countOcc_append_singleton (c' : String) (cs : List String) (c : String) :
    countOcc c' (cs ++ [c]) = countOcc c' cs + (if c = c' then 1 else 0) := by
  simp only [countOcc, List.countP_append, List.countP_cons, List.countP_nil,
    Nat.zero_add, decide_eq_true_eq]

theorem countOcc_eq_zero_of_not_mem {c : String} {cs : List String} (h : c ∉ cs) :
    countOcc c cs = 0 := by
  rw [countOcc, List.countP_eq_zero]
  intro a ha
  simp only [decide_eq_true_eq]
  exact fun hh => h (hh ▸ ha)

theorem countOcc_pos_of_mem {c : String} {cs : List String} (h : c ∈ cs) :
    1 ≤ countOcc c cs :=
  List.countP_pos_iff.mpr ⟨c, h, by simp⟩

/-- The tally dictionary lists the distinct categories in first-occurrence
order, each with its occurrence count. -/
theorem tallyStr_eq (cs : List String) :
    tallyStr cs = (firstDedup cs).map (fun c => (c, countOcc c cs)) := by
  induction cs using List.reverseRecOn with
  | nil => rfl
  | append_singleton cs c ih =>
    rw [tallyStr_append_singleton, ih, firstDedup_append_singleton]
    by_cases hc : c ∈ firstDedup cs
    · rw [if_pos hc, bump_map_mem _ (nodup_firstDedup cs) hc]
      apply List.map_congr_left
      intro a ha
      simp only [Prod.mk.injEq, true_and]
      rw [countOcc_append_singleton]
      by_cases h : a = c
      · rw [if_pos h, if_pos h.symm]
      · rw [if_neg h, if_neg (fun hh => h hh.symm), Nat.add_zero]
    · rw [if_neg hc, bump_map_not_mem _ hc, List.map_append]
      congr 1
      · apply List.map_congr_left
        intro a ha
        simp only [Prod.mk.injEq, true_and]
        have hne : c ≠ a := fun hh => hc (hh ▸ ha)
        rw [countOcc_append_singleton, if_neg hne, Nat.add_zero]
      · simp only [List.map_cons, List.map_nil, Prod.mk.injEq, true_and]
        rw [countOcc_append_singleton, if_pos rfl,
          countOcc_eq_zero_of_not_mem (fun hh => hc (mem_firstDedup.mpr hh))]

/-! ### Fold lemmas for min, max -/

theorem foldl_min_le_init {α : Type} [LinearOrder α] :
    ∀ (l : List α) (a : α), l.foldl min a ≤ a := by
  intro l
  induction l with
  | nil => intro a; exact le_refl a
  | cons x xs ih => intro a; exact le_trans (ih (min a x)) (min_le_left a x)

theorem foldl_min_le_mem {α : Type} [LinearOrder α] :
    ∀ {l : List α} {x : α} (a : α), x ∈ l → l.foldl min a ≤ x := by
  intro l
  induction l with
  | nil => intro x a hx; cases hx
  | cons y ys ih =>
    intro x a hx
    rcases List.mem_cons.mp hx with rfl | hx'
    · exact le_trans (foldl_min_le_init ys (min a x)) (min_le_right a x)
    · exact ih _ hx'

theorem foldl_min_eq_init_or_mem {α : Type} [LinearOrder α] :
    ∀ (l : List α) (a : α), l.foldl min a = a ∨ l.foldl min a ∈ l := by
  intro l
  induction l with
  | nil => intro a; exact Or.inl rfl
  | cons x xs ih =>
    intro a
    rcases ih (min a x) with h | h
    · rcases min_choice a x with h' | h'
      · left; rw [List.foldl_cons, h, h']
      · right; rw [List.foldl_cons, h, h']; exact List.mem_cons_self _ _
    · right; exact List.mem_cons_of_mem _ h

theorem le_foldl_max_init {α : Type} [LinearOrder α] :
    ∀ (l : List α) (a : α), a ≤ l.foldl max a := by
  intro l
  induction l with
  | nil => intro a; exact le_refl a
  | cons x xs ih => intro a; exact le_trans (le_max_left a x) (ih (max a x))

theorem le_foldl_max_mem {α : Type} [LinearOrder α] :
    ∀ {l : List α} {x : α} (a : α), x ∈ l → x ≤ l.foldl max a := by
  intro l
  induction l with
  | nil => intro x a hx; cases hx
  | cons y ys ih =>
    intro x a hx
    rcases List.mem_cons.mp hx with rfl | hx'
    · exact le_trans (le_max_right a x) (le_foldl_max_init ys (max a x))
    · exact ih _ hx'

theorem foldl_max_eq_init_or_mem {α : Type} [LinearOrder α] :
    ∀ (l : List α) (a : α), l.foldl max a = a ∨ l.foldl max a ∈ l := by
  intro l
  induction l with
  | nil => intro a; exact Or.inl rfl
  | cons x xs ih =>
    intro a
    rcases ih (max a x) with h | h
    · rcases max_choice a x with h' | h'
      · left; rw [List.foldl_cons, h, h']
      · right; rw [List.foldl_cons, h, h']; exact List.mem_cons_self _ _
    · right; exact List.mem_cons_of_mem _ h

/-! ### Characterisation of the mostCommonWeather selection -/

theorem maxCnt_append_singleton (counts : List (String × Nat)) (kc : String × Nat) :
    maxCnt (counts ++ [kc]) = max (maxCnt counts) kc.2 := by
  simp [maxCnt, List.foldl_append]

theorem le_maxCnt_of_mem {counts : List (String × Nat)} {kc : String × Nat}
    (h : kc ∈ counts) : kc.2 ≤ maxCnt counts :=
  le_foldl_max_mem 0 (List.mem_map_of_mem Prod.snd h)

theorem mcShadow_cons (items : List Item) (acc : Option WeatherCond × Nat)
    (kc : String × Nat) (rest : List (String × Nat)) :
    mcShadow items acc (kc :: rest) =
      mcShadow items
        (if acc.2 < kc.2 then
          ((firstWith items kc.1).bind (fun it => it.weather.head?), kc.2)
        else acc) rest := rfl

theorem mcShadow_append_singleton (items : List Item) (acc : Option WeatherCond × Nat)
    (counts : List (String × Nat)) (kc : String × Nat) :
    mcShadow items acc (counts ++ [kc]) =
      if (mcShadow items acc counts).2 < kc.2 then
        ((firstWith items kc.1).bind (fun it => it.weather.head?), kc.2)
      else mcShadow items acc counts := by
  simp [mcShadow, List.foldl_append]

theorem mcFold_ok (items : List Item) :
    ∀ (counts : List (String × Nat)) (acc : Option WeatherCond × Nat),
      (∀ kc ∈ counts, (firstWith items kc.1).isSome) →
      mcFold items acc counts = Except.ok (mcShadow items acc counts) := by
  intro counts
  induction counts with
  | nil => intro acc _; rfl
  | cons kc rest ih =>
    intro acc h
    rw [mcShadow_cons, mcFold]
    by_cases hlt : acc.2 < kc.2
    · rw [if_pos hlt, if_pos hlt]
      have hs := h kc (List.mem_cons_self _ _)
      cases hfw : firstWith items kc.1 with
      | none => rw [hfw] at hs; cases hs
      | some it =>
        simp only [hfw, Option.some_bind]
        exact ih _ (fun kc' h' => h kc' (List.mem_cons_of_mem _ h'))
    · rw [if_neg hlt, if_neg hlt]
      exact ih _ (fun kc' h' => h kc' (List.mem_cons_of_mem _ h'))

/-- The selection loop keeps the first entry, in key-insertion order, that
attains the running maximum; hence it ends on the first entry attaining
the overall maximum count. -/
theorem mcShadow_spec (items : List Item) :
    ∀ (counts : List (String × Nat)) (init : Option WeatherCond × Nat),
      init.2 = 0 → (∀ kc ∈ counts, 1 ≤ kc.2) →
      (counts = [] ∧ mcShadow items init counts = init) ∨
      (∃ kc, counts.find? (fun kc' => decide (maxCnt counts ≤ kc'.2)) = some kc ∧
        kc.2 = maxCnt counts ∧
        mcShadow items init counts =
          ((firstWith items kc.1).bind (fun it => it.weather.head?), kc.2)) := by
  intro counts
  induction counts using List.reverseRecOn with
  | nil => intro init _ _; exact Or.inl ⟨rfl, rfl⟩
  | append_singleton rest kc ih =>
    intro init h0 hpos
    right
    rw [mcShadow_append_singleton]
    rcases ih init h0 (fun kc' h' => hpos kc' (List.mem_append_left _ h')) with
      ⟨hnil, hsh⟩ | ⟨kc0, hfind, hmax, hsh⟩
    · subst hnil
      have hk : 1 ≤ kc.2 := hpos kc (List.mem_append_right _ (List.mem_singleton_self _))
      have hlt : init.2 < kc.2 := by omega
      rw [hsh, if_pos hlt]
      refine ⟨kc, ?_, ?_, rfl⟩
      · have hmx : maxCnt [kc] = kc.2 := by simp [maxCnt]
        simp [List.nil_append, List.find?_cons, hmx]
      · simp [maxCnt]
    · rw [hsh]
      by_cases hlt : kc0.2 < kc.2
      · rw [if_pos hlt]
        have hmax' : maxCnt (rest ++ [kc]) = kc.2 := by
          rw [maxCnt_append_singleton, max_eq_right (le_of_lt (hmax ▸ hlt))]
        refine ⟨kc, ?_, hmax'.symm, rfl⟩
        rw [List.find?_append]
        have hnone : rest.find? (fun kc' => decide (maxCnt (rest ++ [kc]) ≤ kc'.2)) = none := by
          rw [List.find?_eq_none]
          intro kc' hkc'
          simp only [decide_eq_true_eq, not_le]
          calc kc'.2 ≤ maxCnt rest := le_maxCnt_of_mem hkc'
            _ < kc.2 := hmax ▸ hlt
            _ = maxCnt (rest ++ [kc]) := hmax'.symm
        rw [hnone]
        simp [hmax']
      · rw [if_neg hlt]
        have hle : kc.2 ≤ maxCnt rest := by omega
        have hmax' : maxCnt (rest ++ [kc]) = maxCnt rest := by
          rw [maxCnt_append_singleton, max_eq_left hle]
        refine ⟨kc0, ?_, by rw [hmax']; exact hmax, rfl⟩
        rw [List.find?_append]
        simp only [hmax']
        rw [hfind]
        rfl

theorem mostCommon_spec (items : List Item) (counts : List (String × Nat))
    (hpos : ∀ kc ∈ counts, 1 ≤ kc.2)
    (hfind : ∀ kc ∈ counts, (firstWith items kc.1).isSome)
    (hne : counts ≠ []) :
    ∃ kc, counts.find? (fun kc' => decide (maxCnt counts ≤ kc'.2)) = some kc ∧
      kc.2 = maxCnt counts ∧
      mostCommon items counts =
        Except.ok ((firstWith items kc.1).bind (fun it => it.weather.head?)) := by
  rw [mostCommon, mcFold_ok items counts _ hfind]
  rcases mcShadow_spec items counts (items.head?.bind (fun it => it.weather.head?), 0)
      rfl hpos with ⟨hnil, _⟩ | ⟨kc, hfind', hmax, hsh⟩
  · exact absurd hnil hne
  · exact ⟨kc, hfind', hmax, by rw [hsh]; rfl⟩

/-! ### Characterisation of the per-bucket reduction -/

theorem tallyStr_counts_pos {cs : List String} :
    ∀ kc ∈ tallyStr cs, 1 ≤ kc.2 := by
  intro kc hkc
  rw [tallyStr_eq] at hkc
  rcases List.mem_map.mp hkc with ⟨c, hc, rfl⟩
  exact countOcc_pos_of_mem (mem_firstDedup.mp hc)

theorem tallyStr_firstWith_isSome {items : List Item} :
    ∀ kc ∈ tallyStr (condsOf items), (firstWith items kc.1).isSome := by
  intro kc hkc
  rw [tallyStr_eq] at hkc
  rcases List.mem_map.mp hkc with ⟨c, hc, rfl⟩
  rcases List.mem_filterMap.mp (mem_firstDedup.mp hc) with ⟨it, hit, hcm⟩
  rw [firstWith, List.find?_isSome]
  exact ⟨it, hit, by simp [hcm]⟩

theorem tallyStr_ne_nil_of_cons {i0 : Item} {rest : List Item}
    (hwf : i0.weather ≠ []) : tallyStr (condsOf (i0 :: rest)) ≠ [] := by
  rcases List.exists_cons_of_ne_nil hwf with ⟨w, ws, hw⟩
  have hmem : w.main ∈ condsOf (i0 :: rest) := by
    apply List.mem_filterMap.mpr
    exact ⟨i0, List.mem_cons_self _ _, by simp [condMain, hw]⟩
  rw [tallyStr_eq]
  intro hcontra
  rw [List.map_eq_nil_iff] at hcontra
  exact (List.ne_nil_of_mem (mem_firstDedup.mpr hmem)) hcontra

/-- Everything the code guarantees about one successfully reduced bucket:
its record fields, and the exact selection of the dominant condition (the
first tallied category, in first-occurrence order, attaining the maximal
count; the detail comes from its first occurrence in bucket order). -/
theorem reduceBucket_ok_cases {items : List Item} {d : Daily}
    (h : reduceBucket items = Except.ok d) :
    ∃ i0 rest kc,
      items = i0 :: rest ∧
      d.items = items ∧
      d.date = i0.dt ∧
      d.minTemp = (rest.map (fun it => it.main.temp_min)).foldl min i0.main.temp_min ∧
      d.maxTemp = (rest.map (fun it => it.main.temp_max)).foldl max i0.main.temp_max ∧
      (∀ it ∈ items, it.weather ≠ []) ∧
      tally items = Except.ok (tallyStr (condsOf items)) ∧
      (tallyStr (condsOf items)).find?
          (fun kc' => decide (maxCnt (tallyStr (condsOf items)) ≤ kc'.2)) = some kc ∧
      kc.2 = maxCnt (tallyStr (condsOf items)) ∧
      d.weather = (firstWith items kc.1).bind (fun it => it.weather.head?) := by
  cases items with
  | nil => rw [reduceBucket] at h; cases h
  | cons i0 rest =>
    rw [reduceBucket] at h
    cases htally : tally (i0 :: rest) with
    | error e =>
      simp only [htally] at h
      exact Except.noConfusion h
    | ok counts =>
      simp only [htally] at h
      have hwf : ∀ it ∈ i0 :: rest, it.weather ≠ [] := tallyAux_ok_wf _ _ _ htally
      have hcounts : counts = tallyStr (condsOf (i0 :: rest)) := by
        have hh := tally_ok_of_wf hwf
        rw [htally] at hh
        exact Except.ok.inj hh
      subst hcounts
      rcases mostCommon_spec (i0 :: rest) _ tallyStr_counts_pos tallyStr_firstWith_isSome
          (tallyStr_ne_nil_of_cons (hwf i0 (List.mem_cons_self _ _))) with
        ⟨kc, hfind, hmax, hmc⟩
      simp only [hmc, Except.ok.injEq] at h
      cases h
      exact ⟨i0, rest, kc, rfl, rfl, rfl, rfl, rfl, hwf, rfl, hfind, hmax, rfl⟩

theorem reduceBucket_ok_of_wf {items : List Item} (hne : items ≠ [])
    (hwf : ∀ it ∈ items, it.weather ≠ []) :
    ∃ d, reduceBucket items = Except.ok d := by
  rcases List.exists_cons_of_ne_nil hne with ⟨i0, rest, rfl⟩
  have htally : tally (i0 :: rest) = Except.ok (tallyStr (condsOf (i0 :: rest))) :=
    tally_ok_of_wf hwf
  rcases mostCommon_spec (i0 :: rest) _ tallyStr_counts_pos tallyStr_firstWith_isSome
      (tallyStr_ne_nil_of_cons (hwf i0 (List.mem_cons_self _ _))) with
    ⟨kc, _, _, hmc⟩
  refine ⟨{ date := i0.dt
            minTemp := (rest.map (fun it => it.main.temp_min)).foldl min i0.main.temp_min
            maxTemp := (rest.map (fun it => it.main.temp_max)).foldl max i0.main.temp_max
            weather := (firstWith (i0 :: rest) kc.1).bind (fun it => it.weather.head?)
            items := i0 :: rest }, ?_⟩
  rw [reduceBucket]
  simp only [htally, hmc]

theorem reduceBucket_error_of_malformed {items : List Item}
    (h : ∃ it ∈ items, it.weather = []) :
    reduceBucket items = Except.error () := by
  cases items with
  | nil => rfl
  | cons i0 rest =>
    rw [reduceBucket, tally, tallyAux_error _ _ h]

/-! ### Characterisation of the whole aggregation -/

theorem mem_dayBucket {dayKey : Int → K} {samples : List Item} {k : K} {it : Item} :
    it ∈ dayBucket dayKey k samples ↔ it ∈ samples ∧ dayKey it.dt = k := by
  simp [dayBucket, List.mem_filter]

theorem dayBucket_ne_nil {dayKey : Int → K} {samples : List Item} {k : K}
    (hk : k ∈ keysOf dayKey samples) : dayBucket dayKey k samples ≠ [] := by
  rcases mem_keysOf.mp hk with ⟨it, hit, hkey⟩
  exact List.ne_nil_of_mem (mem_dayBucket.mpr ⟨hit, hkey⟩)

/-- The summary produced for the bucket of key k (as a total function,
meaningful when the reduction succeeds). -/
def bucketDaily (dayKey : Int → K) (samples : List Item) (k : K) : Daily :=
  okD (reduceBucket (dayBucket dayKey k samples))

theorem bucketDaily_ok {dayKey : Int → K} {samples : List Item} (hwf : WF samples)
    {k : K} (hk : k ∈ keysOf dayKey samples) :
    reduceBucket (dayBucket dayKey k samples) =
      Except.ok (bucketDaily dayKey samples k) := by
  have hwf' : ∀ it ∈ dayBucket dayKey k samples, it.weather ≠ [] :=
    fun it hit => hwf it (mem_dayBucket.mp hit).1
  rcases reduceBucket_ok_of_wf (dayBucket_ne_nil hk) hwf' with ⟨d, hd⟩
  rw [bucketDaily, hd]
  rfl

theorem bucketDaily_items {dayKey : Int → K} {samples : List Item} (hwf : WF samples)
    {k : K} (hk : k ∈ keysOf dayKey samples) :
    (bucketDaily dayKey samples k).items = dayBucket dayKey k samples := by
  rcases reduceBucket_ok_cases (bucketDaily_ok hwf hk) with
    ⟨i0, rest, kc, hcons, hitems, _⟩
  exact hitems

theorem bucketDaily_key {dayKey : Int → K} {samples : List Item} (hwf : WF samples)
    {k : K} (hk : k ∈ keysOf dayKey samples) :
    dayKey (bucketDaily dayKey samples k).date = k := by
  rcases reduceBucket_ok_cases (bucketDaily_ok hwf hk) with
    ⟨i0, rest, kc, hcons, hitems, hdate, _⟩
  rw [hdate]
  have hi0 : i0 ∈ dayBucket dayKey k samples := by
    rw [hcons]
    exact List.mem_cons_self _ _
  exact (mem_dayBucket.mp hi0).2

/-- Under well-formed input, the aggregation succeeds and returns the
sorted list of per-day-key summaries. -/
theorem aggregate_ok_of_wf (dayKey : Int → K) (samples : List Item) (hwf : WF samples) :
    aggregate dayKey samples =
      Except.ok (sortDailies
        ((keysOf dayKey samples).map (bucketDaily dayKey samples))) := by
  rw [aggregate, groupByDay_eq]
  have H : ∀ b ∈ (keysOf dayKey samples).map (fun k => (k, dayBucket dayKey k samples)),
      (fun b => reduceBucket b.2) b =
        Except.ok ((fun b => okD (reduceBucket b.2)) b) := by
    intro b hb
    rcases List.mem_map.mp hb with ⟨k, hk, rfl⟩
    exact bucketDaily_ok hwf hk
  rw [mapExcept_ok_of_forall _ _ H, List.map_map]
  rfl

/-- Every summary of a successful run is the successful reduction of the
bucket of some present day key. -/
theorem aggregate_ok_mem {dayKey : Int → K} {samples : List Item} {out : List Daily}
    (h : aggregate dayKey samples = Except.ok out) :
    ∀ d ∈ out, ∃ k ∈ keysOf dayKey samples,
      reduceBucket (dayBucket dayKey k samples) = Except.ok d := by
  intro d hd
  rw [aggregate] at h
  cases hmap : mapExcept (fun b => reduceBucket b.2) (groupByDay dayKey samples) with
  | error e =>
    rw [hmap] at h
    exact Except.noConfusion h
  | ok mid =>
    rw [hmap] at h
    simp only [Except.map, Except.ok.injEq] at h
    have hdmid : d ∈ mid := by
      have hperm : (sortDailies mid).Perm mid := List.perm_insertionSort dateLE mid
      exact hperm.mem_iff.mp (h ▸ hd)
    rcases mapExcept_ok_mem hmap d hdmid with ⟨b, hb, hred⟩
    rw [groupByDay_eq] at hb
    rcases List.mem_map.mp hb with ⟨k, hk, rfl⟩
    exact ⟨k, hk, hred⟩

theorem aggregate_error_of_malformed (dayKey : Int → K) {samples : List Item}
    (h : ∃ it ∈ samples, it.weather = []) :
    aggregate dayKey samples = Except.error () := by
  rcases h with ⟨it, hit, hw⟩
  rw [aggregate, groupByDay_eq]
  have hk : dayKey it.dt ∈ keysOf dayKey samples := mem_keysOf.mpr ⟨it, hit, rfl⟩
  have hb : (dayKey it.dt, dayBucket dayKey (dayKey it.dt) samples) ∈
      (keysOf dayKey samples).map (fun k => (k, dayBucket dayKey k samples)) :=
    List.mem_map_of_mem _ hk
  have herr : reduceBucket (dayBucket dayKey (dayKey it.dt) samples) =
      Except.error () :=
    reduceBucket_error_of_malformed ⟨it, mem_dayBucket.mpr ⟨hit, rfl⟩, hw⟩
  rw [mapExcept_error_of_mem hb herr]
  rfl

/-- The output list the aggregation produces on well-formed input. -/
def aggOut (dayKey : Int → K) (samples : List Item) : List Daily :=
  sortDailies ((keysOf dayKey samples).map (bucketDaily dayKey samples))

theorem sortDailies_perm (l : List Daily) : (sortDailies l).Perm l :=
  List.perm_insertionSort dateLE l

theorem sortDailies_sorted (l : List Daily) : List.Sorted dateLE (sortDailies l) :=
  List.sorted_insertionSort dateLE l

theorem aggregate_ok_aggOut (dayKey : Int → K) (samples : List Item) (hwf : WF samples) :
    aggregate dayKey samples = Except.ok (aggOut dayKey samples) :=
  aggregate_ok_of_wf dayKey samples hwf

theorem aggOut_map_keys (dayKey : Int → K) (samples : List Item) (hwf : WF samples) :
    ((keysOf dayKey samples).map (bucketDaily dayKey samples)).map
        (fun d => dayKey d.date) = keysOf dayKey samples := by
  rw [List.map_map]
  have H : ∀ k ∈ keysOf dayKey samples,
      ((fun d => dayKey d.date) ∘ bucketDaily dayKey samples) k = id k := by
    intro k hk
    exact bucketDaily_key hwf hk
  rw [List.map_congr_left H, List.map_id]

theorem aggOut_nodup_keys (dayKey : Int → K) (samples : List Item) (hwf : WF samples) :
    ((aggOut dayKey samples).map (fun d => dayKey d.date)).Nodup := by
  have hperm := (sortDailies_perm ((keysOf dayKey samples).map
    (bucketDaily dayKey samples))).map (fun d => dayKey d.date)
  rw [aggOut, hperm.nodup_iff, aggOut_map_keys dayKey samples hwf]
  exact nodup_keysOf dayKey samples

theorem aggOut_sorted_strict (dayKey : Int → K) (samples : List Item) (hwf : WF samples) :
    (aggOut dayKey samples).Pairwise (fun a b => a.date < b.date) := by
  have hle : (aggOut dayKey samples).Pairwise (fun a b => a.date ≤ b.date) :=
    (sortDailies_sorted _).imp (fun h => h)
  have hnd : ((aggOut dayKey samples).map (fun d => d.date)).Nodup := by
    apply List.Nodup.of_map dayKey
    rw [List.map_map]
    exact aggOut_nodup_keys dayKey samples hwf
  have hne : (aggOut dayKey samples).Pairwise (fun a b => a.date ≠ b.date) :=
    List.pairwise_map.mp hnd
  exact (hle.and hne).imp (fun h => lt_of_le_of_ne h.1 h.2)

instance : IsAntisymm Daily (fun a b => a.date < b.date) :=
  ⟨fun _ _ h1 h2 => absurd (lt_trans h1 h2) (lt_irrefl _)⟩

/-! ### Claim theorems -/

/-- C1: on any finite input of well-formed samples the aggregation
succeeds and yields exactly one DailySummary per distinct day key present
in the input, with no duplicate day keys, every sample's day key covered
by a summary, and the output ordered ascending by the representative
timestamp. -/
theorem aggregate_one_summary_per_day (dayKey : Int → K) (samples : List Item)
    (hwf : WF samples) :
    ∃ out, aggregate dayKey samples = Except.ok out ∧
      out.length = (samples.map (fun s => dayKey s.dt)).toFinset.card ∧
      (out.map (fun d => dayKey d.date)).Nodup ∧
      (∀ s ∈ samples, ∃ d ∈ out, dayKey d.date = dayKey s.dt) ∧
      out.Pairwise (fun a b => a.date ≤ b.date) := by
  refine ⟨aggOut dayKey samples, aggregate_ok_aggOut dayKey samples hwf, ?_, ?_, ?_, ?_⟩
  · rw [aggOut, (sortDailies_perm _).length_eq, List.length_map,
      ← List.toFinset_card_of_nodup (nodup_keysOf dayKey samples), keysOf,
      firstDedup_toFinset]
  · exact aggOut_nodup_keys dayKey samples hwf
  · intro s hs
    have hk : dayKey s.dt ∈ keysOf dayKey samples := mem_keysOf.mpr ⟨s, hs, rfl⟩
    refine ⟨bucketDaily dayKey samples (dayKey s.dt), ?_, bucketDaily_key hwf hk⟩
    exact (sortDailies_perm _).mem_iff.mpr (List.mem_map_of_mem _ hk)
  · exact (sortDailies_sorted _).imp (fun h => h)

/-- C2: in every output summary, minTemp is a lower bound of the bucket's
temp_min values attained by some member, and maxTemp an upper bound of
the temp_max values attained by some member. -/
theorem aggregate_minmax_correct (dayKey : Int → K) (samples : List Item)
    (out : List Daily) (h : aggregate dayKey samples = Except.ok out) :
    ∀ d ∈ out,
      (∀ it ∈ d.items, d.minTemp ≤ it.main.temp_min ∧ it.main.temp_max ≤ d.maxTemp) ∧
      (∃ it ∈ d.items, d.minTemp = it.main.temp_min) ∧
      (∃ it ∈ d.items, d.maxTemp = it.main.temp_max) := by
  intro d hd
  rcases aggregate_ok_mem h d hd with ⟨k, hk, hred⟩
  rcases reduceBucket_ok_cases hred with
    ⟨i0, rest, kc, hcons, hitems, hdate, hmin, hmax, hrest⟩
  rw [hitems, hcons]
  refine ⟨?_, ?_, ?_⟩
  · intro it hit
    rcases List.mem_cons.mp hit with rfl | hit'
    · exact ⟨hmin ▸ foldl_min_le_init _ _, hmax ▸ le_foldl_max_init _ _⟩
    · constructor
      · rw [hmin]
        exact foldl_min_le_mem _ (List.mem_map_of_mem _ hit')
      · rw [hmax]
        exact le_foldl_max_mem _ (List.mem_map_of_mem _ hit')
  · rcases foldl_min_eq_init_or_mem (rest.map (fun it => it.main.temp_min))
        i0.main.temp_min with h' | h'
    · exact ⟨i0, List.mem_cons_self _ _, hmin.trans h'⟩
    · rcases List.mem_map.mp h' with ⟨it, hit, hh⟩
      exact ⟨it, List.mem_cons_of_mem _ hit, by rw [hmin, ← hh]⟩
  · rcases foldl_max_eq_init_or_mem (rest.map (fun it => it.main.temp_max))
        i0.main.temp_max with h' | h'
    · exact ⟨i0, List.mem_cons_self _ _, hmax.trans h'⟩
    · rcases List.mem_map.mp h' with ⟨it, hit, hh⟩
      exact ⟨it, List.mem_cons_of_mem _ hit, by rw [hmax, ← hh]⟩

/-- C7: aggregating the empty sequence returns the empty sequence and no
error. -/
theorem aggregate_empty (dayKey : Int → K) : aggregate dayKey [] = Except.ok [] := rfl

/-- C3 counterexample: with the same-day samples Rain at t = 100 followed
by Clouds at t = 50, both categories tie at count 1 and the Clouds
occurrence is the earlier one in time order, yet the output detail is
Rain — the first category in bucket/insertion order, not the tied
category whose first occurrence is earliest in time. -/
theorem tie_break_not_time_order_cex :
    aggregate dk0 [sampRain, sampClouds] = Except.ok [dailyRC] ∧
    dailyRC.weather = some rainCond ∧ rainCond.main = "Rain" ∧
    countOcc "Rain" (condsOf [sampRain, sampClouds]) =
      countOcc "Clouds" (condsOf [sampRain, sampClouds]) ∧
    condMain sampClouds = some "Clouds" ∧ sampClouds.dt < sampRain.dt := by
  refine ⟨rfl, rfl, rfl, rfl, rfl, ?_⟩
  decide

/-- C3 amended: for every successfully reduced day bucket, the tallied
counts list the distinct categories in first-occurrence (insertion) order
within the bucket, each with its occurrence count; the winner is the
first entry of that list attaining the maximal count — i.e. ties resolve
by earliest first occurrence in bucket (input) order, not time order —
and the returned detail is the first condition entry of the first sample,
in bucket order, carrying the winning category. -/
theorem tie_break_insertion_order (items : List Item) (d : Daily)
    (h : reduceBucket items = Except.ok d) :
    ∃ kc, tallyStr (condsOf items) =
        (firstDedup (condsOf items)).map (fun c => (c, countOcc c (condsOf items))) ∧
      (tallyStr (condsOf items)).find?
          (fun kc' => decide (maxCnt (tallyStr (condsOf items)) ≤ kc'.2)) = some kc ∧
      kc.2 = maxCnt (tallyStr (condsOf items)) ∧
      d.weather = (firstWith items kc.1).bind (fun it => it.weather.head?) := by
  rcases reduceBucket_ok_cases h with
    ⟨i0, rest, kc, _, _, _, _, _, _, _, hfind, hmaxc, hweather⟩
  exact ⟨kc, tallyStr_eq _, hfind, hmaxc, hweather⟩

/-- C3 witness: the amended tie-break statement instantiated on the
concrete Rain/Clouds tie. -/
theorem tie_break_insertion_order_witness :
    ∃ kc, tallyStr (condsOf [sampRain, sampClouds]) =
        (firstDedup (condsOf [sampRain, sampClouds])).map
          (fun c => (c, countOcc c (condsOf [sampRain, sampClouds]))) ∧
      (tallyStr (condsOf [sampRain, sampClouds])).find?
          (fun kc' => decide (maxCnt (tallyStr (condsOf [sampRain, sampClouds])) ≤ kc'.2)) =
        some kc ∧
      kc.2 = maxCnt (tallyStr (condsOf [sampRain, sampClouds])) ∧
      dailyRC.weather =
        (firstWith [sampRain, sampClouds] kc.1).bind (fun it => it.weather.head?) :=
  tie_break_insertion_order [sampRain, sampClouds] dailyRC rfl

/-- C4 counterexample: with the day's samples arriving out of
chronological order (Rain at t = 100 inserted before Clouds at t = 50),
the summary's representative timestamp is 100 — the first-inserted
member's — although a bucket member has the strictly smaller
timestamp 50. -/
theorem representative_not_min_timestamp_cex :
    aggregate dk0 [sampRain, sampClouds] = Except.ok [dailyRC] ∧
    dailyRC.date = sampRain.dt ∧ sampClouds ∈ dailyRC.items ∧
    sampClouds.dt < dailyRC.date := by
  refine ⟨rfl, rfl, ?_, ?_⟩ <;> decide

/-- C4 amended: every output summary's representative timestamp is the
timestamp of the first-inserted bucket member — the day's first sample
in input order — and its bucket is exactly the input-order sub-sequence
of that day's samples; it equals the chronologically smallest timestamp
whenever the input is chronologically ordered. -/
theorem representative_is_first_inserted (dayKey : Int → K) (samples : List Item)
    (out : List Daily) (h : aggregate dayKey samples = Except.ok out) :
    ∀ d ∈ out, ∃ i0 rest, d.items = i0 :: rest ∧ d.date = i0.dt ∧
      d.items = dayBucket dayKey (dayKey i0.dt) samples ∧
      (samples.Pairwise (fun a b => a.dt ≤ b.dt) → ∀ it ∈ d.items, i0.dt ≤ it.dt) := by
  intro d hd
  rcases aggregate_ok_mem h d hd with ⟨k, hk, hred⟩
  rcases reduceBucket_ok_cases hred with ⟨i0, rest, kc, hcons, hitems, hdate, hrest⟩
  have hi0 : i0 ∈ dayBucket dayKey k samples := by
    rw [hcons]
    exact List.mem_cons_self _ _
  have hkey : dayKey i0.dt = k := (mem_dayBucket.mp hi0).2
  refine ⟨i0, rest, by rw [hitems, hcons], hdate, by rw [hitems, hkey], ?_⟩
  intro hsorted it hit
  have hpair : (dayBucket dayKey k samples).Pairwise (fun a b => a.dt ≤ b.dt) :=
    List.Pairwise.sublist (List.filter_sublist samples) hsorted
  rw [hcons] at hpair
  rw [hitems, hcons] at hit
  rcases List.mem_cons.mp hit with rfl | hit'
  · exact le_refl _
  · exact (List.pairwise_cons.mp hpair).1 it hit'

/-- C4 witness: the amended representative-timestamp statement
instantiated on the concrete out-of-order day. -/
theorem representative_is_first_inserted_witness :
    ∃ i0 rest, dailyRC.items = i0 :: rest ∧ dailyRC.date = i0.dt ∧
      dailyRC.items = dayBucket dk0 (dk0 i0.dt) [sampRain, sampClouds] ∧
      ([sampRain, sampClouds].Pairwise (fun a b => a.dt ≤ b.dt) →
        ∀ it ∈ dailyRC.items, i0.dt ≤ it.dt) :=
  representative_is_first_inserted dk0 [sampRain, sampClouds] [dailyRC] rfl dailyRC
    (List.mem_singleton_self dailyRC)

/-- C5 counterexample: swapping the two same-day samples changes the
output summary (different representative timestamp and different
dominant condition), so the aggregation is not invariant under
permutations of the input. -/
theorem aggregate_not_permutation_invariant_cex :
    ([sampRain, sampClouds] : List Item).Perm [sampClouds, sampRain] ∧
    aggregate dk0 [sampRain, sampClouds] = Except.ok [dailyRC] ∧
    aggregate dk0 [sampClouds, sampRain] = Except.ok [dailyCR] ∧
    dailyRC ≠ dailyCR := by
  refine ⟨List.Perm.swap sampClouds sampRain [], rfl, rfl, ?_⟩
  decide

/-- C5 amended: the aggregation is invariant under exactly those input
permutations that preserve each day's relative sample order: if two
well-formed inputs are permutations of each other and every day key's
bucket (input-order filter) coincides, the outputs are equal. -/
theorem aggregate_perm_invariant_within_day (dayKey : Int → K) (l1 l2 : List Item)
    (hwf : WF l1) (hperm : l1.Perm l2)
    (hday : ∀ k : K, dayBucket dayKey k l1 = dayBucket dayKey k l2) :
    aggregate dayKey l1 = aggregate dayKey l2 := by
  have hwf2 : WF l2 := fun it hit => hwf it (hperm.mem_iff.mpr hit)
  rw [aggregate_ok_aggOut dayKey l1 hwf, aggregate_ok_aggOut dayKey l2 hwf2]
  congr 1
  have hkperm : (keysOf dayKey l1).Perm (keysOf dayKey l2) := by
    apply List.perm_of_nodup_nodup_toFinset_eq (nodup_keysOf _ _) (nodup_keysOf _ _)
    apply Finset.ext
    intro k
    simp only [List.mem_toFinset, mem_keysOf]
    constructor
    · rintro ⟨it, hit, rfl⟩
      exact ⟨it, hperm.mem_iff.mp hit, rfl⟩
    · rintro ⟨it, hit, rfl⟩
      exact ⟨it, hperm.mem_iff.mpr hit, rfl⟩
  have hfun : ∀ k ∈ keysOf dayKey l1,
      bucketDaily dayKey l1 k = bucketDaily dayKey l2 k := by
    intro k _
    rw [bucketDaily, bucketDaily, hday k]
  have hpre : ((keysOf dayKey l1).map (bucketDaily dayKey l1)).Perm
      ((keysOf dayKey l2).map (bucketDaily dayKey l2)) := by
    rw [List.map_congr_left hfun]
    exact hkperm.map _
  exact List.eq_of_perm_of_sorted
    (((sortDailies_perm _).trans hpre).trans (sortDailies_perm _).symm)
    (aggOut_sorted_strict dayKey l1 hwf) (aggOut_sorted_strict dayKey l2 hwf2)

/-- C5 witness: the amended order-independence statement instantiated on
a two-day input and its cross-day swap (which preserves each day's
internal order). -/
theorem aggregate_perm_invariant_within_day_witness :
    aggregate dk0 [sampRain, sampDay2] = aggregate dk0 [sampDay2, sampRain] := by
  apply aggregate_perm_invariant_within_day dk0 [sampRain, sampDay2] [sampDay2, sampRain]
    (by decide) (List.Perm.swap sampDay2 sampRain [])
  intro k
  have hA : dk0 sampRain.dt = 0 := by decide
  have hB : dk0 sampDay2.dt = 1 := by decide
  simp only [dayBucket, List.filter, hA, hB]
  by_cases h : (0 : Int) = k
  · by_cases h' : (1 : Int) = k
    · exact absurd (h'.trans h.symm) (by decide)
    · simp [h, h']
  · by_cases h' : (1 : Int) = k
    · simp [h, h']
    · simp [h, h']

/-- C6: the aggregation is a pure, deterministic function of its input:
repeated calls on the same input give the same value, and the samples
carried in the output buckets are (value-equal) members of the input,
which the aggregation never mutates. -/
theorem aggregate_deterministic_pure (dayKey : Int → K) (samples : List Item) :
    aggregate dayKey samples = aggregate dayKey samples ∧
    (∀ out, aggregate dayKey samples = Except.ok out →
      ∀ d ∈ out, ∀ it ∈ d.items, it ∈ samples) := by
  refine ⟨rfl, ?_⟩
  intro out h d hd it hit
  rcases aggregate_ok_mem h d hd with ⟨k, hk, hred⟩
  rcases reduceBucket_ok_cases hred with ⟨i0, rest, kc, hcons, hitems, hrest⟩
  rw [hitems] at hit
  exact (mem_dayBucket.mp hit).1

/-- C6 witness: the purity statement instantiated on a concrete run. -/
theorem aggregate_deterministic_pure_witness :
    aggregate dk0 [sampRain, sampClouds] = aggregate dk0 [sampRain, sampClouds] ∧
    (∀ out, aggregate dk0 [sampRain, sampClouds] = Except.ok out →
      ∀ d ∈ out, ∀ it ∈ d.items, it ∈ [sampRain, sampClouds]) :=
  aggregate_deterministic_pure dk0 [sampRain, sampClouds]

/-- C8 counterexample: a same-day pair of one valid and one malformed
sample (empty weather array) makes the whole aggregation abort with an
error — the malformed sample is not skipped, and the valid sample
produces no summary at all. -/
theorem malformed_sample_aborts_cex :
    sampBad.weather = [] ∧ dk0 sampBad.dt = dk0 sampRain.dt ∧
    aggregate dk0 [sampRain, sampBad] = Except.error () := by
  refine ⟨rfl, ?_, rfl⟩
  decide

/-- C8 amended: a sample missing its condition entries is not skipped:
its presence makes the entire aggregation abort with an error (the code
throws a TypeError reading item.weather[0].main), so neither its
temperatures nor its day's other samples contribute to any output. -/
theorem malformed_sample_aborts (dayKey : Int → K) (samples : List Item)
    (h : ∃ it ∈ samples, it.weather = []) :
    aggregate dayKey samples = Except.error () :=
  aggregate_error_of_malformed dayKey h

/-- C8 witness: the amended abort statement instantiated on the concrete
malformed input. -/
theorem malformed_sample_aborts_witness :
    aggregate dk0 [sampRain, sampBad] = Except.error () :=
  malformed_sample_aborts dk0 [sampRain, sampBad]
    ⟨sampBad, by decide, rfl⟩

/-- C9 counterexample: a present but truthy non-iterable sample sequence
passes the falsy guard and the run throws at forEach — the aggregator
does not report an empty result for every non-iterable input. -/
theorem screen_not_iterable_raises_cex :
    screen dk0 false (some { list := JSList.notIterable }) = Except.error () := rfl

/-- C9 amended: when the upstream data or its sample sequence is absent
(falsy), the screen renders a placeholder carrying no summaries and
raises no error; only a present-but-non-iterable sequence makes the run
throw. -/
theorem screen_absent_unavailable (dayKey : Int → K) (loading : Bool)
    (fd : Option ForecastData)
    (h : fd = none ∨ fd = some { list := JSList.absent }) :
    ∃ v, screen dayKey loading fd = Except.ok v ∧ summariesOf v = [] := by
  rcases h with rfl | rfl
  · cases loading with
    | true => exact ⟨View.loading, rfl, rfl⟩
    | false => exact ⟨View.unavailable, rfl, rfl⟩
  · refine ⟨View.unavailable, ?_, rfl⟩
    cases loading <;> rfl

/-- C9 witness: the amended absent-input statement instantiated
concretely. -/
theorem screen_absent_unavailable_witness :
    ∃ v, screen dk0 false (some { list := JSList.absent }) = Except.ok v ∧
      summariesOf v = [] :=
  screen_absent_unavailable dk0 false (some { list := JSList.absent }) (Or.inr rfl)

/-- C10: when every sample carries at least one condition entry, each
output summary's dominant condition detail is exactly the first condition
entry of some sample of that summary's own day bucket — never synthesized
and never drawn from another day. -/
theorem dominant_detail_from_own_bucket (dayKey : Int → K) (samples : List Item)
    (out : List Daily) (hwf : WF samples)
    (h : aggregate dayKey samples = Except.ok out) :
    ∀ d ∈ out,
      (∃ w it, d.weather = some w ∧ it ∈ d.items ∧ it.weather.head? = some w) ∧
      (∀ it ∈ d.items, it ∈ samples ∧ dayKey it.dt = dayKey d.date) := by
  intro d hd
  rcases aggregate_ok_mem h d hd with ⟨k, hk, hred⟩
  rcases reduceBucket_ok_cases hred with
    ⟨i0, rest, kc, hcons, hitems, hdate, hmin, hmax, hwfb, htally, hfind, hmaxc, hweather⟩
  have hkey : dayKey d.date = k := by
    rw [hdate]
    have hi0 : i0 ∈ dayBucket dayKey k samples := by
      rw [hcons]
      exact List.mem_cons_self _ _
    exact (mem_dayBucket.mp hi0).2
  constructor
  · have hkc : kc ∈ tallyStr (condsOf (dayBucket dayKey k samples)) :=
      List.mem_of_find?_eq_some hfind
    have hsome := tallyStr_firstWith_isSome kc hkc
    cases hfw : firstWith (dayBucket dayKey k samples) kc.1 with
    | none => rw [hfw] at hsome; cases hsome
    | some it =>
      have hit : it ∈ dayBucket dayKey k samples := List.mem_of_find?_eq_some hfw
      have hcm : condMain it = some kc.1 := by
        have hp := List.find?_some hfw
        simpa using hp
      rw [condMain] at hcm
      rcases Option.map_eq_some'.mp hcm with ⟨w, hw, _⟩
      refine ⟨w, it, ?_, by rw [hitems]; exact hit, hw⟩
      rw [hweather, hfw, Option.some_bind, hw]
  · intro it hit
    rw [hitems] at hit
    rcases mem_dayBucket.mp hit with ⟨hmem, hkey'⟩
    refine ⟨hmem, ?_⟩
    rw [hkey]
    exact hkey'

/-- C10 witness: the own-bucket detail statement instantiated on the
concrete two-sample day. -/
theorem dominant_detail_from_own_bucket_witness :
    (∃ w it, dailyRC.weather = some w ∧ it ∈ dailyRC.items ∧
      it.weather.head? = some w) ∧
    (∀ it ∈ dailyRC.items, it ∈ [sampRain, sampClouds] ∧ dk0 it.dt = dk0 dailyRC.date) :=
  dominant_detail_from_own_bucket dk0 [sampRain, sampClouds] [dailyRC]
    (by decide) rfl dailyRC (List.mem_singleton_self dailyRC)

/-- C1 witness: the grouping-completeness statement instantiated on the
concrete two-sample input. -/
theorem aggregate_one_summary_per_day_witness :
    ∃ out, aggregate dk0 [sampRain, sampClouds] = Except.ok out ∧
      out.length = ([sampRain, sampClouds].map (fun s => dk0 s.dt)).toFinset.card ∧
      (out.map (fun d => dk0 d.date)).Nodup ∧
      (∀ s ∈ [sampRain, sampClouds], ∃ d ∈ out, dk0 d.date = dk0 s.dt) ∧
      out.Pairwise (fun a b => a.date ≤ b.date) :=
  aggregate_one_summary_per_day dk0 [sampRain, sampClouds] (by decide)

/-- C2 witness: the min/max statement instantiated on the concrete
two-sample day. -/
theorem aggregate_minmax_correct_witness :
    (∀ it ∈ dailyRC.items,
      dailyRC.minTemp ≤ it.main.temp_min ∧ it.main.temp_max ≤ dailyRC.maxTemp) ∧
    (∃ it ∈ dailyRC.items, dailyRC.minTemp = it.main.temp_min) ∧
    (∃ it ∈ dailyRC.items, dailyRC.maxTemp = it.main.temp_max) :=
  aggregate_minmax_correct dk0 [sampRain, sampClouds] [dailyRC] rfl dailyRC
    (List.mem_singleton_self dailyRC)

end ForecastAgg
